import Mathlib

/-!
Shallow embedding of the `Ticker` time-series lookup class from
`src/python/markets/_classes.py` (the spec's `TimeSeriesTable`), together
with proofs of the spec's lookup properties.

Modelling conventions:
* A calendar date (`datetime.date`) is an integer day number since the epoch.
* A stored instant (the numeric `date` column) is an integer count of seconds.
* `datetime.datetime(y, m, d).timestamp()` is the local-midnight instant of
  the calendar date; as the spec requires, one fixed timezone convention is
  used process-wide, so midnight of day `d` is `86400 * d`.
* `datetime.date.fromtimestamp` maps an instant to the calendar day that
  contains it, i.e. floor division by the number of seconds in a day.
* The numpy structured array is a list of rows; each row has the reserved
  `date` field plus the remaining named fields in dtype order.
* Python exceptions become an error type: `KeyError("Date not found…")` is
  `dateNotFound` (the spec's `DateNotFoundError`), the bare
  `Exception("There was more than one matching row")` is `dataIntegrity`
  (the spec's `DataIntegrityError`), and `IndexError` from indexing an
  empty array in `get_first_date`/`get_last_date` is `emptyTable` (the
  spec's `EmptyTableError`).
-/

/-- Python's `datetime.datetime(date.year, date.month, date.day).timestamp()`:
the midnight instant of calendar day `d`, under the single fixed
timezone convention (86400 seconds per day). -/
def toTimestamp (d : Int) : Int := 86400 * d

/-- Python's `datetime.date.fromtimestamp(t)`: the calendar day containing instant
`t`, i.e. floor division of the instant by the length of a day. -/
def fromTimestamp (t : Int) : Int := Int.fdiv t 86400

/-- One row of the numpy structured array `self.data`: the reserved
numeric `date` field together with the remaining named fields. -/
structure Row where
  date : Int
  others : List (String × Int)
deriving Repr, DecidableEq

/-- The dict built by `Ticker._get_row`: the same named fields, with the
`date` field translated back to a calendar date. -/
structure TickerRecord where
  date : Int
  others : List (String × Int)
deriving Repr, DecidableEq

/-- The `Ticker` class: `name`, `long_name` (the spec's `display_name`)
and the columnar data table. -/
structure Ticker where
  name : String
  long_name : String
  data : List Row
deriving Repr, DecidableEq

/-- The Python exceptions raised by `Ticker`'s lookup methods, under the
spec's error taxonomy (§7). -/
inductive TickerError
  /-- Python `IndexError` from an out-of-bounds row access; for the boundary-date
  queries on a table with no rows this is the spec's `EmptyTableError`. -/
  | emptyTable
  /-- Python `KeyError("Date not found…")`: the spec's `DateNotFoundError`. -/
  | dateNotFound
  /-- Python `Exception("There was more than one matching row")`: the spec's
  `DataIntegrityError`. -/
  | dataIntegrity
deriving Repr, DecidableEq

deriving instance DecidableEq for Except

/-- The `date` column `self.data['date']`. -/
def Ticker.dates (t : Ticker) : List Int := t.data.map Row.date

/-- Model of `np.where(p)[0]` on a one-dimensional array: the ascending list of
indices whose entry satisfies the predicate. -/
def npWhere (p : Int → Bool) (xs : List Int) : List Nat :=
  (List.range xs.length).filter (fun i => p (xs.getD i 0))

/-- Embeds `Ticker.get_first_date`: `date.fromtimestamp(self.data[0]['date'])`.
On an empty table, `self.data[0]` raises `IndexError`. -/
def Ticker.get_first_date (t : Ticker) : Except TickerError Int :=
  match t.data.head? with
  | none => .error .emptyTable
  | some r => .ok (fromTimestamp r.date)

/-- Embeds `Ticker.get_last_date`: `date.fromtimestamp(self.data[-1]['date'])`.
On an empty table, `self.data[-1]` raises `IndexError`. -/
def Ticker.get_last_date (t : Ticker) : Except TickerError Int :=
  match t.data.getLast? with
  | none => .error .emptyTable
  | some r => .ok (fromTimestamp r.date)

/-- Embeds `Ticker._get_row(index)`: the row's fields as a dict, with the `date`
field translated to a calendar date; `IndexError` if the index does not
exist. -/
def Ticker.get_row (t : Ticker) (index : Nat) : Except TickerError TickerRecord :=
  match t.data.get? index with
  | none => .error .emptyTable
  | some r => .ok ⟨fromTimestamp r.date, r.others⟩

/-- Embeds `Ticker.get_day(date)` (the spec's `row_at`): exact instant match;
zero matches raise `KeyError`, more than one raise the integrity error. -/
def Ticker.get_day (t : Ticker) (date : Int) : Except TickerError TickerRecord :=
  let timestamp := toTimestamp date
  let matchIdxs := npWhere (fun x => x == timestamp) t.dates
  match matchIdxs with
  | [] => .error .dateNotFound
  | [i] => t.get_row i
  | _ => .error .dataIntegrity

/-- Embeds `Ticker.get_day_or_first_after(date)` (the spec's `row_on_or_after`):
`matches = np.where(self.data['date'] >= timestamp)[0]`; raises `KeyError`
when empty, else returns the row at `matches[0]`. -/
def Ticker.get_day_or_first_after (t : Ticker) (date : Int) :
    Except TickerError TickerRecord :=
  let timestamp := toTimestamp date
  let matchIdxs := npWhere (fun x => decide (timestamp ≤ x)) t.dates
  match matchIdxs.head? with
  | none => .error .dateNotFound
  | some i => t.get_row i

/-- Embeds `Ticker.get_day_or_last_before(date)` (the spec's `row_on_or_before`):
`matches = np.where(self.data['date'] <= timestamp)[0]`; raises `KeyError`
when empty, else returns the row at `matches[-1]`. -/
def Ticker.get_day_or_last_before (t : Ticker) (date : Int) :
    Except TickerError TickerRecord :=
  let timestamp := toTimestamp date
  let matchIdxs := npWhere (fun x => decide (x ≤ timestamp)) t.dates
  match matchIdxs.getLast? with
  | none => .error .dateNotFound
  | some i => t.get_row i

/-- The spec's table invariant: rows sorted ascending by the `date`
instant. -/
def Ticker.SortedByDate (t : Ticker) : Prop := t.dates.Sorted (· ≤ ·)

/-- The spec's full table invariant: rows sorted ascending by the `date`
instant with unique instants, i.e. strictly ascending. -/
def Ticker.StrictSortedByDate (t : Ticker) : Prop := t.dates.Sorted (· < ·)

instance (t : Ticker) : Decidable t.SortedByDate := by
  unfold Ticker.SortedByDate; infer_instance

instance (t : Ticker) : Decidable t.StrictSortedByDate := by
  unfold Ticker.StrictSortedByDate; infer_instance

/-- Sample table shaped like the spec's example (§8): three trading days
with a weekend gap, as day numbers 2, 3 and 6. -/
def sampleTicker : Ticker :=
  { name := "OMXS30"
    long_name := "OMX Stockholm 30"
    data := [⟨86400 * 2, [("close", 100)]⟩,
             ⟨86400 * 3, [("close", 101)]⟩,
             ⟨86400 * 6, [("close", 103)]⟩] }

/-! ### Properties of the index search `npWhere` -/

theorem mem_npWhere {p : Int → Bool} {xs : List Int} {i : Nat} :
    i ∈ npWhere p xs ↔ i < xs.length ∧ p (xs.getD i 0) = true := by
  simp [npWhere, List.mem_filter, List.mem_range]

theorem npWhere_sorted (p : Int → Bool) (xs : List Int) :
    (npWhere p xs).Sorted (· < ·) :=
  (List.sorted_lt_range _).filter _

theorem npWhere_eq_nil_iff {p : Int → Bool} {xs : List Int} :
    npWhere p xs = [] ↔ ∀ i, i < xs.length → p (xs.getD i 0) = false := by
  rw [List.eq_nil_iff_forall_not_mem]
  constructor
  · intro h i hi
    have := h i
    rw [mem_npWhere] at this
    simpa [hi] using this
  · intro h i hmem
    rw [mem_npWhere] at hmem
    have h2 := hmem.2
    rw [h i hmem.1] at h2
    exact Bool.false_ne_true h2

theorem npWhere_length (p : Int → Bool) (xs : List Int) :
    (npWhere p xs).length = xs.countP p := by
  induction xs with
  | nil => rfl
  | cons x tl ih =>
    show ((List.range (x :: tl).length).filter
        fun i => p ((x :: tl).getD i 0)).length = _
    rw [List.length_cons, List.range_succ_eq_map, List.filter_cons]
    have hcomp : ((fun i => p ((x :: tl).getD i 0)) ∘ Nat.succ)
        = fun i => p (tl.getD i 0) := by
      funext i
      simp
    rw [List.filter_map, hcomp, List.countP_cons]
    have ih2 : (List.filter (fun i => p (tl.getD i 0)) (List.range tl.length)).length
        = List.countP p tl := ih
    by_cases hp : p x
    · simp only [List.getD_cons_zero, hp, if_true, List.length_cons, List.length_map]
      rw [ih2]
    · simp only [List.getD_cons_zero, hp, if_false, List.length_map, Bool.false_eq_true]
      rw [ih2]
      simp [hp]

theorem sorted_head?_min {l : List Nat} (hs : l.Sorted (· < ·)) {i : Nat}
    (h : l.head? = some i) : i ∈ l ∧ ∀ j ∈ l, i ≤ j := by
  cases l with
  | nil => simp at h
  | cons a tl =>
    rw [List.head?_cons, Option.some_inj] at h
    subst h
    rw [List.sorted_cons] at hs
    refine ⟨List.mem_cons_self _ _, ?_⟩
    intro j hj
    rcases List.mem_cons.mp hj with rfl | hj
    · exact Nat.le_refl _
    · exact Nat.le_of_lt (hs.1 j hj)

theorem sorted_getLast?_max {l : List Nat} (hs : l.Sorted (· < ·)) {i : Nat}
    (h : l.getLast? = some i) : i ∈ l ∧ ∀ j ∈ l, j ≤ i := by
  induction l with
  | nil => simp at h
  | cons a tl ih =>
    cases tl with
    | nil =>
      simp only [List.getLast?_singleton, Option.some_inj] at h
      subst h
      simp
    | cons b tl2 =>
      rw [List.getLast?_cons_cons] at h
      rw [List.sorted_cons] at hs
      obtain ⟨hmem, hmax⟩ := ih hs.2 h
      refine ⟨List.mem_cons_of_mem _ hmem, ?_⟩
      intro j hj
      rcases List.mem_cons.mp hj with rfl | hj
      · exact Nat.le_of_lt (hs.1 i hmem)
      · exact hmax j hj

theorem npWhere_head?_eq_some_iff {p : Int → Bool} {xs : List Int} {i : Nat} :
    (npWhere p xs).head? = some i ↔
      i < xs.length ∧ p (xs.getD i 0) = true ∧
        ∀ j, j < i → p (xs.getD j 0) = false := by
  constructor
  · intro h
    obtain ⟨hmem, hmin⟩ := sorted_head?_min (npWhere_sorted p xs) h
    rw [mem_npWhere] at hmem
    refine ⟨hmem.1, hmem.2, ?_⟩
    intro j hj
    by_contra hcon
    rw [Bool.not_eq_false] at hcon
    have hjmem : j ∈ npWhere p xs :=
      mem_npWhere.mpr ⟨Nat.lt_trans hj hmem.1, hcon⟩
    exact absurd (hmin j hjmem) (Nat.not_le_of_lt hj)
  · rintro ⟨hi, hp, hmin⟩
    have himem : i ∈ npWhere p xs := mem_npWhere.mpr ⟨hi, hp⟩
    cases hnw : (npWhere p xs).head? with
    | none =>
      rw [List.head?_eq_none_iff] at hnw
      rw [hnw] at himem
      simp at himem
    | some m =>
      obtain ⟨hmmem, hmmin⟩ := sorted_head?_min (npWhere_sorted p xs) hnw
      have hmi : m ≤ i := hmmin i himem
      rw [mem_npWhere] at hmmem
      rcases Nat.lt_or_ge m i with hlt | hge
      · have h2 := hmmem.2
        rw [hmin m hlt] at h2
        exact absurd h2 Bool.false_ne_true
      · rw [Nat.le_antisymm hmi hge]

theorem npWhere_getLast?_eq_some_iff {p : Int → Bool} {xs : List Int} {i : Nat} :
    (npWhere p xs).getLast? = some i ↔
      i < xs.length ∧ p (xs.getD i 0) = true ∧
        ∀ j, i < j → j < xs.length → p (xs.getD j 0) = false := by
  constructor
  · intro h
    obtain ⟨hmem, hmax⟩ := sorted_getLast?_max (npWhere_sorted p xs) h
    rw [mem_npWhere] at hmem
    refine ⟨hmem.1, hmem.2, ?_⟩
    intro j hij hj
    by_contra hcon
    rw [Bool.not_eq_false] at hcon
    have hjmem : j ∈ npWhere p xs := mem_npWhere.mpr ⟨hj, hcon⟩
    exact absurd (hmax j hjmem) (Nat.not_le_of_lt hij)
  · rintro ⟨hi, hp, hmax⟩
    have himem : i ∈ npWhere p xs := mem_npWhere.mpr ⟨hi, hp⟩
    cases hnw : (npWhere p xs).getLast? with
    | none =>
      rw [List.getLast?_eq_none_iff] at hnw
      rw [hnw] at himem
      simp at himem
    | some m =>
      obtain ⟨hmmem, hmmax⟩ := sorted_getLast?_max (npWhere_sorted p xs) hnw
      have him : i ≤ m := hmmax i himem
      rw [mem_npWhere] at hmmem
      rcases Nat.lt_or_ge i m with hlt | hge
      · have h2 := hmmem.2
        rw [hmax m hlt hmmem.1] at h2
        exact absurd h2 Bool.false_ne_true
      · rw [Nat.le_antisymm him hge]

/-! ### Bridging facts between the table, its date column and indices -/

theorem dates_length (t : Ticker) : t.dates.length = t.data.length := by
  simp [Ticker.dates]

theorem dates_getD (t : Ticker) {i : Nat} (h : i < t.data.length) :
    t.dates.getD i 0 = t.data[i].date := by
  rw [Ticker.dates, List.getD_eq_getElem?_getD, List.getElem?_map,
    List.getElem?_eq_getElem h]
  rfl

theorem get_row_eq_ok (t : Ticker) {i : Nat} (h : i < t.data.length) :
    t.get_row i = .ok ⟨fromTimestamp t.data[i].date, t.data[i].others⟩ := by
  rw [Ticker.get_row, List.get?_eq_getElem?, List.getElem?_eq_getElem h]

theorem fromTimestamp_toTimestamp (d : Int) : fromTimestamp (toTimestamp d) = d :=
  Int.mul_fdiv_cancel_left d (by decide)

theorem fromTimestamp_mono {a b : Int} (h : a ≤ b) :
    fromTimestamp a ≤ fromTimestamp b := by
  rw [fromTimestamp, fromTimestamp, Int.fdiv_eq_ediv _ (by decide),
    Int.fdiv_eq_ediv _ (by decide)]
  exact Int.ediv_le_ediv (by decide) h

theorem sorted_dates_le (t : Ticker) (hs : t.SortedByDate) {i j : Nat}
    (hij : i ≤ j) (hj : j < t.data.length) :
    t.data[i].date ≤ t.data[j].date := by
  have hi : i < t.data.length := Nat.lt_of_le_of_lt hij hj
  have hlen : t.dates.length = t.data.length := dates_length t
  rcases Nat.eq_or_lt_of_le hij with rfl | hlt
  · exact le_refl _
  · have h := List.Sorted.rel_get_of_lt hs
      (Fin.mk_lt_mk.mpr hlt :
        (⟨i, hlen ▸ hi⟩ : Fin t.dates.length) < ⟨j, hlen ▸ hj⟩)
    simpa [Ticker.dates, List.get_eq_getElem] using h

theorem sorted_dates_lt (t : Ticker) (hs : t.StrictSortedByDate) {i j : Nat}
    (hij : i < j) (hj : j < t.data.length) :
    t.data[i].date < t.data[j].date := by
  have hi : i < t.data.length := Nat.lt_trans hij hj
  have hlen : t.dates.length = t.data.length := dates_length t
  have h := List.Sorted.rel_get_of_lt hs
    (Fin.mk_lt_mk.mpr hij :
      (⟨i, hlen ▸ hi⟩ : Fin t.dates.length) < ⟨j, hlen ▸ hj⟩)
  simpa [Ticker.dates, List.get_eq_getElem] using h

/-! ### Characterizations of the three lookups, straight from the code -/

theorem get_day_eq_ok_iff (t : Ticker) (d : Int) (rec : TickerRecord) :
    t.get_day d = .ok rec ↔
      ∃ i, ∃ h : i < t.data.length,
        t.data[i].date = toTimestamp d ∧
        (∀ j, ∀ hj : j < t.data.length, j ≠ i → t.data[j].date ≠ toTimestamp d) ∧
        rec = ⟨fromTimestamp t.data[i].date, t.data[i].others⟩ := by
  constructor
  · intro hok
    simp only [Ticker.get_day] at hok
    rcases hnw : npWhere (fun x => x == toTimestamp d) t.dates with _ | ⟨i, _ | ⟨b, tl⟩⟩
    · rw [hnw] at hok
      simp at hok
    · rw [hnw] at hok
      simp only at hok
      have himem : i ∈ npWhere (fun x => x == toTimestamp d) t.dates := by
        rw [hnw]
        exact List.mem_singleton_self i
      rw [mem_npWhere, dates_length] at himem
      obtain ⟨hi, hp⟩ := himem
      rw [dates_getD t hi, beq_iff_eq] at hp
      refine ⟨i, hi, hp, ?_, ?_⟩
      · intro j hj hji hcon
        have hjmem : j ∈ npWhere (fun x => x == toTimestamp d) t.dates := by
          rw [mem_npWhere, dates_length]
          exact ⟨hj, by rw [dates_getD t hj, beq_iff_eq]; exact hcon⟩
        rw [hnw, List.mem_singleton] at hjmem
        exact hji hjmem
      · rw [get_row_eq_ok t hi] at hok
        exact (Except.ok.inj hok).symm
    · rw [hnw] at hok
      simp at hok
  · rintro ⟨i, hi, heq, huniq, rfl⟩
    have hnw : npWhere (fun x => x == toTimestamp d) t.dates = [i] := by
      have hsorted := npWhere_sorted (fun x => x == toTimestamp d) t.dates
      have hmem : ∀ j, j ∈ npWhere (fun x => x == toTimestamp d) t.dates ↔ j = i := by
        intro j
        rw [mem_npWhere, dates_length]
        constructor
        · rintro ⟨hj, hpj⟩
          rw [dates_getD t hj, beq_iff_eq] at hpj
          by_contra hji
          exact huniq j hj hji hpj
        · rintro rfl
          exact ⟨hi, by rw [dates_getD t hi, beq_iff_eq]; exact heq⟩
      rcases hnw2 : npWhere (fun x => x == toTimestamp d) t.dates with _ | ⟨a, tl⟩
      · have := (hmem i).mpr rfl
        rw [hnw2] at this
        simp at this
      · have ha : a = i := (hmem a).mp (by rw [hnw2]; exact List.mem_cons_self a tl)
        subst ha
        cases tl with
        | nil => rfl
        | cons b tl2 =>
          have hb : b = a := (hmem b).mp
            (by rw [hnw2]; exact List.mem_cons_of_mem _ (List.mem_cons_self b tl2))
          subst hb
          have := hsorted
          rw [hnw2, List.sorted_cons] at this
          exact absurd (this.1 b (List.mem_cons_self b tl2)) (lt_irrefl b)
    simp only [Ticker.get_day]
    rw [hnw]
    simp only
    exact get_row_eq_ok t hi

theorem first_after_ok_iff (t : Ticker) (d : Int) (rec : TickerRecord) :
    t.get_day_or_first_after d = .ok rec ↔
      ∃ i, ∃ h : i < t.data.length,
        toTimestamp d ≤ t.data[i].date ∧
        (∀ j, ∀ hj : j < i, t.data[j].date < toTimestamp d) ∧
        rec = ⟨fromTimestamp t.data[i].date, t.data[i].others⟩ := by
  constructor
  · intro hok
    simp only [Ticker.get_day_or_first_after] at hok
    rcases hh : (npWhere (fun x => decide (toTimestamp d ≤ x)) t.dates).head? with _ | i
    · rw [hh] at hok
      simp at hok
    · rw [hh] at hok
      simp only at hok
      rw [npWhere_head?_eq_some_iff, dates_length] at hh
      obtain ⟨hi, hp, hmin⟩ := hh
      rw [dates_getD t hi] at hp
      refine ⟨i, hi, of_decide_eq_true hp, ?_, ?_⟩
      · intro j hj
        have hfalse := hmin j hj
        rw [dates_getD t (Nat.lt_trans hj hi)] at hfalse
        have := of_decide_eq_false hfalse
        omega
      · rw [get_row_eq_ok t hi] at hok
        exact (Except.ok.inj hok).symm
  · rintro ⟨i, hi, hge, hmin, rfl⟩
    simp only [Ticker.get_day_or_first_after]
    have hh : (npWhere (fun x => decide (toTimestamp d ≤ x)) t.dates).head? = some i := by
      rw [npWhere_head?_eq_some_iff, dates_length]
      refine ⟨hi, ?_, ?_⟩
      · rw [dates_getD t hi]
        exact decide_eq_true hge
      · intro j hj
        rw [dates_getD t (Nat.lt_trans hj hi)]
        exact decide_eq_false (by have := hmin j hj; omega)
    rw [hh]
    simp only
    exact get_row_eq_ok t hi

theorem last_before_ok_iff (t : Ticker) (d : Int) (rec : TickerRecord) :
    t.get_day_or_last_before d = .ok rec ↔
      ∃ i, ∃ h : i < t.data.length,
        t.data[i].date ≤ toTimestamp d ∧
        (∀ j, i < j → ∀ hj : j < t.data.length, toTimestamp d < t.data[j].date) ∧
        rec = ⟨fromTimestamp t.data[i].date, t.data[i].others⟩ := by
  constructor
  · intro hok
    simp only [Ticker.get_day_or_last_before] at hok
    rcases hh : (npWhere (fun x => decide (x ≤ toTimestamp d)) t.dates).getLast? with _ | i
    · rw [hh] at hok
      simp at hok
    · rw [hh] at hok
      simp only at hok
      rw [npWhere_getLast?_eq_some_iff, dates_length] at hh
      obtain ⟨hi, hp, hmax⟩ := hh
      rw [dates_getD t hi] at hp
      refine ⟨i, hi, of_decide_eq_true hp, ?_, ?_⟩
      · intro j hij hj
        have hfalse := hmax j hij hj
        rw [dates_getD t hj] at hfalse
        have := of_decide_eq_false hfalse
        omega
      · rw [get_row_eq_ok t hi] at hok
        exact (Except.ok.inj hok).symm
  · rintro ⟨i, hi, hle, hmax, rfl⟩
    simp only [Ticker.get_day_or_last_before]
    have hh : (npWhere (fun x => decide (x ≤ toTimestamp d)) t.dates).getLast? = some i := by
      rw [npWhere_getLast?_eq_some_iff, dates_length]
      refine ⟨hi, ?_, ?_⟩
      · rw [dates_getD t hi]
        exact decide_eq_true hle
      · intro j hij hj
        rw [dates_getD t hj]
        exact decide_eq_false (by have := hmax j hij hj; omega)
    rw [hh]
    simp only
    exact get_row_eq_ok t hi

theorem first_after_error_iff (t : Ticker) (d : Int) :
    t.get_day_or_first_after d = .error .dateNotFound ↔
      ∀ r ∈ t.data, r.date < toTimestamp d := by
  constructor
  · intro herr
    simp only [Ticker.get_day_or_first_after] at herr
    rcases hh : (npWhere (fun x => decide (toTimestamp d ≤ x)) t.dates).head? with _ | i
    · rw [List.head?_eq_none_iff, npWhere_eq_nil_iff] at hh
      intro r hr
      obtain ⟨j, hj, hrow⟩ := List.mem_iff_getElem.mp hr
      have hfalse := hh j (by rw [dates_length]; exact hj)
      rw [dates_getD t hj, hrow] at hfalse
      have := of_decide_eq_false hfalse
      omega
    · rw [hh] at herr
      simp only at herr
      rw [npWhere_head?_eq_some_iff, dates_length] at hh
      rw [get_row_eq_ok t hh.1] at herr
      simp at herr
  · intro hall
    have hnil : npWhere (fun x => decide (toTimestamp d ≤ x)) t.dates = [] := by
      rw [npWhere_eq_nil_iff]
      intro i hi
      rw [dates_length] at hi
      rw [dates_getD t hi]
      exact decide_eq_false (by have := hall _ (List.getElem_mem hi); omega)
    simp [Ticker.get_day_or_first_after, hnil]

theorem last_before_error_iff (t : Ticker) (d : Int) :
    t.get_day_or_last_before d = .error .dateNotFound ↔
      ∀ r ∈ t.data, toTimestamp d < r.date := by
  constructor
  · intro herr
    simp only [Ticker.get_day_or_last_before] at herr
    rcases hh : (npWhere (fun x => decide (x ≤ toTimestamp d)) t.dates).getLast? with _ | i
    · rw [List.getLast?_eq_none_iff, npWhere_eq_nil_iff] at hh
      intro r hr
      obtain ⟨j, hj, hrow⟩ := List.mem_iff_getElem.mp hr
      have hfalse := hh j (by rw [dates_length]; exact hj)
      rw [dates_getD t hj, hrow] at hfalse
      have := of_decide_eq_false hfalse
      omega
    · rw [hh] at herr
      simp only at herr
      rw [npWhere_getLast?_eq_some_iff, dates_length] at hh
      rw [get_row_eq_ok t hh.1] at herr
      simp at herr
  · intro hall
    have hnil : npWhere (fun x => decide (x ≤ toTimestamp d)) t.dates = [] := by
      rw [npWhere_eq_nil_iff]
      intro i hi
      rw [dates_length] at hi
      rw [dates_getD t hi]
      exact decide_eq_false (by have := hall _ (List.getElem_mem hi); omega)
    simp [Ticker.get_day_or_last_before, hnil]

/-! ### Further concrete tables used as witnesses and counterexamples -/

/-- Table with no rows. -/
def emptyTicker : Ticker :=
  { name := "empty", long_name := "empty table", data := [] }

/-- Table violating the unique-instant invariant: two rows share the
midnight instant of day 1. -/
def duplicateTicker : Ticker :=
  { name := "dup", long_name := "duplicated instant", data := [⟨86400, []⟩, ⟨86400, []⟩] }

/-- Table violating the sorted-ascending invariant: rows in descending
instant order (day 1 before day 0). -/
def unsortedTicker : Ticker :=
  { name := "unsorted", long_name := "unsorted table", data := [⟨86400, []⟩, ⟨0, []⟩] }

/-! ### State-passing forms of the lookups

None of the Python method bodies contains an assignment to `self` or to
any of its fields; each only reads them. The state-passing form of each
call therefore returns the receiver it was given. -/

/-- State-passing form of `get_first_date`: result plus the receiver
after the call. -/
def Ticker.get_first_date_st (t : Ticker) : Except TickerError Int × Ticker :=
  (t.get_first_date, t)

/-- State-passing form of `get_last_date`. -/
def Ticker.get_last_date_st (t : Ticker) : Except TickerError Int × Ticker :=
  (t.get_last_date, t)

/-- State-passing form of `get_day`. -/
def Ticker.get_day_st (t : Ticker) (date : Int) :
    Except TickerError TickerRecord × Ticker :=
  (t.get_day date, t)

/-- State-passing form of `get_day_or_first_after`. -/
def Ticker.get_day_or_first_after_st (t : Ticker) (date : Int) :
    Except TickerError TickerRecord × Ticker :=
  (t.get_day_or_first_after date, t)

/-- State-passing form of `get_day_or_last_before`. -/
def Ticker.get_day_or_last_before_st (t : Ticker) (date : Int) :
    Except TickerError TickerRecord × Ticker :=
  (t.get_day_or_last_before date, t)

/-! ### The claims -/

/-- C1: for every non-empty table sorted ascending by instant and every
calendar date `d` such that exactly one row's instant equals the
local-midnight instant of `d`, `get_day d` (the spec's `row_at`) returns
that unique row as a record carrying the row's stored fields, with the
`date` field translated back to the calendar date `d`. -/
theorem get_day_unique_match (t : Ticker) (d : Int) (i : Nat)
    (hs : t.SortedByDate) (hne : t.data ≠ []) (hi : i < t.data.length)
    (hdate : t.data[i].date = toTimestamp d)
    (huniq : t.dates.countP (fun x => x == toTimestamp d) = 1) :
    t.get_day d = .ok ⟨d, t.data[i].others⟩ := by
  have hpoint : ∀ j, ∀ hj : j < t.data.length, j ≠ i →
      t.data[j].date ≠ toTimestamp d := by
    intro j hj hji hcon
    have hlen : (npWhere (fun x => x == toTimestamp d) t.dates).length = 1 := by
      rw [npWhere_length]
      exact huniq
    obtain ⟨a, ha⟩ := List.length_eq_one.mp hlen
    have himem : i ∈ npWhere (fun x => x == toTimestamp d) t.dates := by
      rw [mem_npWhere, dates_length]
      exact ⟨hi, by rw [dates_getD t hi, beq_iff_eq]; exact hdate⟩
    have hjmem : j ∈ npWhere (fun x => x == toTimestamp d) t.dates := by
      rw [mem_npWhere, dates_length]
      exact ⟨hj, by rw [dates_getD t hj, beq_iff_eq]; exact hcon⟩
    rw [ha, List.mem_singleton] at himem hjmem
    exact hji (hjmem.trans himem.symm)
  exact (get_day_eq_ok_iff t d ⟨d, t.data[i].others⟩).mpr
    ⟨i, hi, hdate, hpoint, by rw [hdate, fromTimestamp_toTimestamp]⟩

theorem get_day_unique_match_witness :
    sampleTicker.get_day 2 = .ok ⟨2, [("close", 100)]⟩ :=
  get_day_unique_match sampleTicker 2 0 (by decide) (by decide) (by decide)
    (by decide) (by decide)

/-- C2: for every table sorted ascending by instant, `get_day_or_first_after`
(the spec's `row_on_or_after`) returns a record exactly when some row's
instant is at or after the query's midnight instant, namely the row at the
lowest qualifying index, which is also the row with the earliest qualifying
instant; and it fails with the date-not-found error exactly when every
row's instant is before the query instant, i.e. the query is after the
last row. -/
theorem get_day_or_first_after_spec (t : Ticker) (d : Int) (hs : t.SortedByDate) :
    (∀ rec, t.get_day_or_first_after d = .ok rec ↔
      ∃ i, ∃ h : i < t.data.length,
        toTimestamp d ≤ t.data[i].date ∧
        (∀ j, ∀ hj : j < i, t.data[j].date < toTimestamp d) ∧
        (∀ j, ∀ hj : j < t.data.length, toTimestamp d ≤ t.data[j].date →
          t.data[i].date ≤ t.data[j].date) ∧
        rec = ⟨fromTimestamp t.data[i].date, t.data[i].others⟩)
    ∧ (t.get_day_or_first_after d = .error .dateNotFound ↔
        ∀ r ∈ t.data, r.date < toTimestamp d) := by
  constructor
  · intro rec
    rw [first_after_ok_iff]
    constructor
    · rintro ⟨i, hi, hge, hmin, rfl⟩
      refine ⟨i, hi, hge, hmin, ?_, rfl⟩
      intro j hj hqual
      have hij : i ≤ j := by
        by_contra hcon
        have := hmin j (by omega)
        omega
      exact sorted_dates_le t hs hij hj
    · rintro ⟨i, hi, hge, hmin, _, rfl⟩
      exact ⟨i, hi, hge, hmin, rfl⟩
  · exact first_after_error_iff t d

theorem get_day_or_first_after_spec_witness :
    sampleTicker.get_day_or_first_after 4 = .ok ⟨6, [("close", 103)]⟩ :=
  ((get_day_or_first_after_spec sampleTicker 4 (by decide)).1 _).mpr
    ⟨2, by decide, by decide, by decide, by decide, by decide⟩

/-- C3: for every table sorted ascending by instant, `get_day_or_last_before`
(the spec's `row_on_or_before`) returns a record exactly when some row's
instant is at or before the query's midnight instant, namely the row at the
highest qualifying index, which is also the row with the latest qualifying
instant; and it fails with the date-not-found error exactly when every
row's instant is after the query instant, i.e. the query is before the
first row. -/
theorem get_day_or_last_before_spec (t : Ticker) (d : Int) (hs : t.SortedByDate) :
    (∀ rec, t.get_day_or_last_before d = .ok rec ↔
      ∃ i, ∃ h : i < t.data.length,
        t.data[i].date ≤ toTimestamp d ∧
        (∀ j, i < j → ∀ hj : j < t.data.length, toTimestamp d < t.data[j].date) ∧
        (∀ j, ∀ hj : j < t.data.length, t.data[j].date ≤ toTimestamp d →
          t.data[j].date ≤ t.data[i].date) ∧
        rec = ⟨fromTimestamp t.data[i].date, t.data[i].others⟩)
    ∧ (t.get_day_or_last_before d = .error .dateNotFound ↔
        ∀ r ∈ t.data, toTimestamp d < r.date) := by
  constructor
  · intro rec
    rw [last_before_ok_iff]
    constructor
    · rintro ⟨i, hi, hle, hmax, rfl⟩
      refine ⟨i, hi, hle, hmax, ?_, rfl⟩
      intro j hj hqual
      have hij : j ≤ i := by
        by_contra hcon
        have := hmax j (by omega) hj
        omega
      exact sorted_dates_le t hs hij hi
    · rintro ⟨i, hi, hle, hmax, _, rfl⟩
      exact ⟨i, hi, hle, hmax, rfl⟩
  · exact last_before_error_iff t d

theorem get_day_or_last_before_spec_witness :
    sampleTicker.get_day_or_last_before 4 = .ok ⟨3, [("close", 101)]⟩ :=
  ((get_day_or_last_before_spec sampleTicker 4 (by decide)).1 _).mpr
    ⟨1, by decide, by decide,
      by
        intro j hj1 hj
        have hj3 : j < 3 := hj
        interval_cases j
        show (345600 : Int) < 518400
        decide,
      by decide, by decide⟩

/-- C4: for every table in which more than one row's instant equals the
local-midnight instant of the query date, `get_day` fails with the
data-integrity error and never returns any of the duplicate rows. -/
theorem get_day_duplicate_integrity (t : Ticker) (d : Int)
    (hdup : 1 < t.dates.countP (fun x => x == toTimestamp d)) :
    t.get_day d = .error .dataIntegrity ∧ ∀ rec, t.get_day d ≠ .ok rec := by
  have hlen : 1 < (npWhere (fun x => x == toTimestamp d) t.dates).length := by
    rw [npWhere_length]
    exact hdup
  rcases hnw : npWhere (fun x => x == toTimestamp d) t.dates with _ | ⟨a, _ | ⟨b, tl⟩⟩
  · rw [hnw] at hlen
    simp at hlen
  · rw [hnw] at hlen
    simp at hlen
  · have herr : t.get_day d = .error .dataIntegrity := by
      simp only [Ticker.get_day]
      rw [hnw]
    refine ⟨herr, fun rec hok => ?_⟩
    rw [herr] at hok
    exact Except.noConfusion hok

theorem get_day_duplicate_integrity_witness :
    duplicateTicker.get_day 1 = .error .dataIntegrity ∧
      ∀ rec, duplicateTicker.get_day 1 ≠ .ok rec :=
  get_day_duplicate_integrity duplicateTicker 1 (by decide)

/-- C5: for every table and every query date whose midnight instant equals
no row's instant, `get_day` fails with the date-not-found error. -/
theorem get_day_missing_date (t : Ticker) (d : Int)
    (h : ∀ r ∈ t.data, r.date ≠ toTimestamp d) :
    t.get_day d = .error .dateNotFound := by
  have hnil : npWhere (fun x => x == toTimestamp d) t.dates = [] := by
    rw [npWhere_eq_nil_iff]
    intro i hi
    rw [dates_length] at hi
    rw [dates_getD t hi]
    exact beq_eq_false_iff_ne.mpr (h _ (List.getElem_mem hi))
  simp [Ticker.get_day, hnil]

theorem get_day_missing_date_witness :
    sampleTicker.get_day 5 = .error .dateNotFound :=
  get_day_missing_date sampleTicker 5 (by decide)

/-- C6: on a table with zero rows, `get_first_date` and `get_last_date`
both fail with the empty-table error (the `IndexError` of `data[0]` and
`data[-1]`, the spec's `EmptyTableError`). -/
theorem empty_table_boundary_dates (t : Ticker) (h : t.data = []) :
    t.get_first_date = .error .emptyTable ∧
      t.get_last_date = .error .emptyTable := by
  constructor
  · simp [Ticker.get_first_date, h]
  · simp [Ticker.get_last_date, h]

theorem empty_table_boundary_dates_witness :
    emptyTicker.get_first_date = .error .emptyTable ∧
      emptyTicker.get_last_date = .error .emptyTable :=
  empty_table_boundary_dates emptyTicker rfl

/-- C7: for every table sorted ascending by instant and query dates
`d ≤ e`, if `get_day_or_first_after` succeeds on both, the date of the
record returned for `d` is at most the date of the record returned for
`e` (monotonicity of the ceiling lookup). -/
theorem get_day_or_first_after_mono (t : Ticker) (d e : Int)
    (hs : t.SortedByDate) (hde : d ≤ e) (rec1 rec2 : TickerRecord)
    (h1 : t.get_day_or_first_after d = .ok rec1)
    (h2 : t.get_day_or_first_after e = .ok rec2) :
    rec1.date ≤ rec2.date := by
  rw [first_after_ok_iff] at h1 h2
  obtain ⟨i1, hi1, hge1, hmin1, rfl⟩ := h1
  obtain ⟨i2, hi2, hge2, hmin2, rfl⟩ := h2
  have hts : toTimestamp d ≤ toTimestamp e := by
    simp only [toTimestamp]
    omega
  have hqual : toTimestamp d ≤ t.data[i2].date := le_trans hts hge2
  have hij : i1 ≤ i2 := by
    by_contra hcon
    have := hmin1 i2 (by omega)
    omega
  exact fromTimestamp_mono (sorted_dates_le t hs hij hi2)

theorem get_day_or_first_after_mono_witness :
    (⟨3, [("close", 101)]⟩ : TickerRecord).date ≤
      (⟨6, [("close", 103)]⟩ : TickerRecord).date :=
  get_day_or_first_after_mono sampleTicker 3 4 (by decide) (by decide)
    ⟨3, [("close", 101)]⟩ ⟨6, [("close", 103)]⟩ (by decide) (by decide)

/-- C8: for every non-empty table whose instants are strictly ascending
(the sortedness plus uniqueness invariant) and are midnight instants of
calendar dates — the spec's stable-and-reversible conversion requirement
for dates present in the table — `get_day_or_last_before (get_first_date)`
returns the first row and `get_day_or_first_after (get_last_date)` returns
the last row: converting a stored boundary instant to a calendar date and
back re-selects the same boundary row. -/
theorem boundary_roundtrip (t : Ticker) (hne : t.data ≠ [])
    (hs : t.StrictSortedByDate)
    (hmid : ∀ r ∈ t.data, toTimestamp (fromTimestamp r.date) = r.date) :
    t.get_first_date = .ok (fromTimestamp (t.data.head hne).date) ∧
    t.get_last_date = .ok (fromTimestamp (t.data.getLast hne).date) ∧
    t.get_day_or_last_before (fromTimestamp (t.data.head hne).date) =
      .ok ⟨fromTimestamp (t.data.head hne).date, (t.data.head hne).others⟩ ∧
    t.get_day_or_first_after (fromTimestamp (t.data.getLast hne).date) =
      .ok ⟨fromTimestamp (t.data.getLast hne).date, (t.data.getLast hne).others⟩ := by
  have hpos : 0 < t.data.length := List.length_pos.mpr hne
  have hhead : t.data.head hne = t.data[0] := List.head_eq_getElem t.data hne
  have hlast : t.data.getLast hne = t.data[t.data.length - 1] :=
    List.getLast_eq_getElem t.data hne
  refine ⟨?_, ?_, ?_, ?_⟩
  · simp [Ticker.get_first_date, List.head?_eq_head hne]
  · simp [Ticker.get_last_date, List.getLast?_eq_getLast t.data hne]
  · rw [last_before_ok_iff]
    refine ⟨0, hpos, ?_, ?_, ?_⟩
    · rw [hmid _ (List.head_mem hne), hhead]
    · intro j hj0 hj
      rw [hmid _ (List.head_mem hne), hhead]
      exact sorted_dates_lt t hs hj0 hj
    · rw [hhead]
  · rw [first_after_ok_iff]
    refine ⟨t.data.length - 1, by omega, ?_, ?_, ?_⟩
    · rw [hmid _ (List.getLast_mem hne), hlast]
    · intro j hj
      rw [hmid _ (List.getLast_mem hne), hlast]
      exact sorted_dates_lt t hs hj (by omega)
    · rw [hlast]

theorem boundary_roundtrip_witness :
    sampleTicker.get_first_date = .ok 2 ∧
    sampleTicker.get_last_date = .ok 6 ∧
    sampleTicker.get_day_or_last_before 2 = .ok ⟨2, [("close", 100)]⟩ ∧
    sampleTicker.get_day_or_first_after 6 = .ok ⟨6, [("close", 103)]⟩ :=
  boundary_roundtrip sampleTicker (by decide) (by decide) (by decide)

/-- C9: every lookup, run as a state-passing call, leaves the table
unchanged: after each of the five operations the receiver's `name`,
`long_name` (the spec's `display_name`) and `data` rows equal their
values before the call, whether the call returned a record or failed. -/
theorem lookups_leave_table_unchanged (t : Ticker) (d : Int) :
    ((t.get_first_date_st).2.name = t.name ∧
      (t.get_first_date_st).2.long_name = t.long_name ∧
      (t.get_first_date_st).2.data = t.data) ∧
    ((t.get_last_date_st).2.name = t.name ∧
      (t.get_last_date_st).2.long_name = t.long_name ∧
      (t.get_last_date_st).2.data = t.data) ∧
    ((t.get_day_st d).2.name = t.name ∧
      (t.get_day_st d).2.long_name = t.long_name ∧
      (t.get_day_st d).2.data = t.data) ∧
    ((t.get_day_or_first_after_st d).2.name = t.name ∧
      (t.get_day_or_first_after_st d).2.long_name = t.long_name ∧
      (t.get_day_or_first_after_st d).2.data = t.data) ∧
    ((t.get_day_or_last_before_st d).2.name = t.name ∧
      (t.get_day_or_last_before_st d).2.long_name = t.long_name ∧
      (t.get_day_or_last_before_st d).2.data = t.data) :=
  ⟨⟨rfl, rfl, rfl⟩, ⟨rfl, rfl, rfl⟩, ⟨rfl, rfl, rfl⟩,
    ⟨rfl, rfl, rfl⟩, ⟨rfl, rfl, rfl⟩⟩

/-- C10 (counterexample): quantified over every table, the claim fails.
On a table whose rows are not sorted ascending, `get_day 0` succeeds with
the day-0 row, yet `get_day_or_first_after 0` returns a different record
(the day-1 row at index 0), so the three lookups do not agree. -/
theorem exact_hit_agreement_cex :
    unsortedTicker.get_day 0 = .ok ⟨0, []⟩ ∧
    unsortedTicker.get_day_or_first_after 0 = .ok ⟨1, []⟩ ∧
    (⟨1, []⟩ : TickerRecord) ≠ ⟨0, []⟩ := by
  decide

/-- C10 (amended: restricted to tables sorted ascending by instant, the
data-model invariant): whenever `get_day d` succeeds, `get_day_or_first_after d`
and `get_day_or_last_before d` also succeed and return exactly the same
record, because all three use the identical midnight-instant conversion. -/
theorem exact_hit_agreement (t : Ticker) (d : Int) (hs : t.SortedByDate)
    (rec : TickerRecord) (hok : t.get_day d = .ok rec) :
    t.get_day_or_first_after d = .ok rec ∧
      t.get_day_or_last_before d = .ok rec := by
  rw [get_day_eq_ok_iff] at hok
  obtain ⟨i, hi, heq, huniq, rfl⟩ := hok
  constructor
  · rw [first_after_ok_iff]
    refine ⟨i, hi, le_of_eq heq.symm, ?_, rfl⟩
    intro j hj
    have hle : t.data[j].date ≤ t.data[i].date :=
      sorted_dates_le t hs (Nat.le_of_lt hj) hi
    have hne2 : t.data[j].date ≠ toTimestamp d := huniq j (by omega) (by omega)
    omega
  · rw [last_before_ok_iff]
    refine ⟨i, hi, le_of_eq heq, ?_, rfl⟩
    intro j hij hj
    have hle : t.data[i].date ≤ t.data[j].date :=
      sorted_dates_le t hs (Nat.le_of_lt hij) hj
    have hne2 : t.data[j].date ≠ toTimestamp d := huniq j hj (by omega)
    omega

theorem exact_hit_agreement_witness :
    sampleTicker.get_day_or_first_after 3 = .ok ⟨3, [("close", 101)]⟩ ∧
      sampleTicker.get_day_or_last_before 3 = .ok ⟨3, [("close", 101)]⟩ :=
  exact_hit_agreement sampleTicker 3 (by decide) ⟨3, [("close", 101)]⟩ (by decide)
